import Mathlib

/-!
Verification of `post.py`, a CalculiX post-processing utility.

The development shallowly embeds the program: each Python function becomes a
Lean function over explicit data.  File contents are modelled as lists of
lines (`List String`); fallible Python code (exceptions such as `IndexError`,
`KeyError`, `ValueError`) is modelled with `Option`/`Except`, where a `none`
or `.error` result means the Python code raises and the program aborts before
producing its output file.  Python float values are modelled as exact
fractions (`PyFloat`, a numerator/denominator pair): the pipeline never does
arithmetic on displacement values — it only parses, copies and formats them —
so the exact-fraction model preserves all the behaviour the specification
talks about.
-/

/-! ### Python string primitives -/

/-- Model of Python `str.strip()`: drop leading and trailing whitespace. -/
def pyStrip (s : String) : String :=
  String.mk (((s.toList.dropWhile Char.isWhitespace).reverse.dropWhile
    Char.isWhitespace).reverse)

/-- Helper for `pySplit`: accumulates the current (reversed) token. -/
def pySplitAux : List Char → List Char → List String
  | cur, [] => if cur.isEmpty then [] else [String.mk cur.reverse]
  | cur, c :: l =>
    if c.isWhitespace then
      if cur.isEmpty then pySplitAux [] l
      else String.mk cur.reverse :: pySplitAux [] l
    else pySplitAux (c :: cur) l

/-- Model of Python `str.split()` with no argument: split on runs of
whitespace, discarding empty tokens. -/
def pySplit (s : String) : List String := pySplitAux [] s.toList

/-- Helper for `containsSub`: substring test on character lists. -/
def containsSubAux (pat : List Char) : List Char → Bool
  | [] => pat.isEmpty
  | c :: l => pat.isPrefixOf (c :: l) || containsSubAux pat l

/-- Model of Python `pat in s` on strings: substring containment. -/
def containsSub (pat s : String) : Bool := containsSubAux pat.toList s.toList

/-- Model of Python `s.startswith(pre)`. -/
def startsW (pre s : String) : Bool := pre.toList.isPrefixOf s.toList

/-- Model of Python `[n for n, x in enumerate(l) if p(x)][0]` packaged as an
option: the index of the first element satisfying `p`, if any. -/
def firstIdx (p : α → Bool) : List α → Option Nat
  | [] => none
  | a :: l => if p a then some 0 else (firstIdx p l).map (· + 1)

/-- Model of Python `enumerate` (pairs `(index, element)` starting at `i`). -/
def enumFrom (i : Nat) : List α → List (Nat × α)
  | [] => []
  | a :: l => (i, a) :: enumFrom (i + 1) l

/-- Model of Python `enumerate(l)`. -/
def pyEnumerate (l : List α) : List (Nat × α) := enumFrom 0 l

/-! ### Python sequence indexing and slicing -/

/-- Model of Python indexing `l[i]`: negative indices count from the end;
`none` models the `IndexError` raised when the index is out of range. -/
def pyGet (l : List α) (i : Int) : Option α :=
  let j : Int := if i < 0 then (l.length : Int) + i else i
  if 0 ≤ j then
    if j < (l.length : Int) then l.get? j.toNat else none
  else none

/-- Effective index of a slice bound, per Python semantics: negative bounds
count from the end, and bounds are clamped into `[0, len]`. -/
def clampIdx (len : Nat) (i : Int) : Nat :=
  if i < 0 then ((len : Int) + i).toNat else min i.toNat len

/-- Model of Python slicing `l[a:b]` (unit step): never raises. -/
def pySlice (l : List α) (a b : Int) : List α :=
  (l.take (clampIdx l.length b)).drop (clampIdx l.length a)

/-! ### Numeric token parsing

Python `int(...)` and `float(...)` raise `ValueError` on malformed tokens;
both are modelled with `Option`.  Float values are represented exactly as
fractions. -/

/-- Exact model of a Python float value as a fraction `num / den`.  All
values produced by the parser have a positive power-of-ten denominator.  The
pipeline only copies and formats these values, never computes with them. -/
structure PyFloat where
  num : Int
  den : Nat
deriving DecidableEq

/-- Accumulating decimal-digit parser; fails on a non-digit character. -/
def digitsToNatAux (acc : Nat) : List Char → Option Nat
  | [] => some acc
  | c :: l => if c.isDigit then digitsToNatAux (acc * 10 + (c.toNat - 48)) l else none

/-- Parse a nonempty string of decimal digits; `none` on empty input or any
non-digit. -/
def digitsToNat : List Char → Option Nat
  | [] => none
  | l => digitsToNatAux 0 l

/-- Parse an optionally signed decimal integer from characters. -/
def pyIntOfChars : List Char → Option Int
  | '-' :: l => (digitsToNat l).map (fun n => -(n : Int))
  | '+' :: l => (digitsToNat l).map (fun n => (n : Int))
  | l => (digitsToNat l).map (fun n => (n : Int))

/-- Model of Python `int(s)`. -/
def pyInt (s : String) : Option Int := pyIntOfChars (pyStrip s).toList

/-- Parse the mantissa part of a float literal: digits with an optional
decimal point, at least one digit overall. -/
def mantissaVal (l : List Char) : Option PyFloat :=
  match l.splitOn '.' with
  | [a] => (digitsToNat a).map (fun n => ⟨n, 1⟩)
  | [a, b] =>
    if a.isEmpty && b.isEmpty then none
    else do
      let ia ← if a.isEmpty then some 0 else digitsToNat a
      let fb ← if b.isEmpty then some 0 else digitsToNat b
      some ⟨ia * 10 ^ b.length + fb, 10 ^ b.length⟩
  | _ => none

/-- Apply a decimal exponent to a fraction (exactly). -/
def applyExp (q : PyFloat) (e : Int) : PyFloat :=
  if 0 ≤ e then ⟨q.num * 10 ^ e.toNat, q.den⟩ else ⟨q.num, q.den * 10 ^ (-e).toNat⟩

/-- Model of Python `float(s)` for decimal literals with an optional sign,
optional fractional part and optional exponent. -/
def pyFloat (s : String) : Option PyFloat :=
  let l := (pyStrip s).toList
  let sl : Int × List Char :=
    match l with
    | '-' :: r => (-1, r)
    | '+' :: r => (1, r)
    | r => (1, r)
  match (sl.2.map (fun c => if c = 'E' then 'e' else c)).splitOn 'e' with
  | [m] => (mantissaVal m).map (fun q => ⟨sl.1 * q.num, q.den⟩)
  | [m, ex] => do
    let mv ← mantissaVal m
    let ev ← pyIntOfChars ex
    let r := applyExp mv ev
    some ⟨sl.1 * r.num, r.den⟩
  | _ => none

/-! ### Stage 1: `read_displacements` (post.py lines 24-52)

Model of reading `<base>.dat`: the file content is the list of its lines.
The source strips every line, locates the first line containing `energy`
(raising `IndexError` if there is none, modelled by `none`), sets
`end = (energyIdx + 2) - 3`, locates the first line containing
`displacements`, sets `start = dispIdx + 2`, and parses `lines[start:end]`,
dropping the first whitespace token of each line and converting the rest
with `float`. -/

/-- Model of `read_displacements` from post.py. -/
def read_displacements (lines0 : List String) : Option (List (List PyFloat)) :=
  let lines := lines0.map pyStrip
  match firstIdx (fun ln => containsSub "energy" ln) lines with
  | none => none
  | some eIdx =>
    let endIdx : Int := ((eIdx : Int) + 2) - 3
    match firstIdx (fun ln => containsSub "displacements" ln) lines with
    | none => none
    | some dIdx =>
      let start : Int := (dIdx : Int) + 2
      (pySlice lines start endIdx).mapM
        (fun ln => ((pySplit ln).drop 1).mapM pyFloat)

/-! ### Stage 2: `read_expansion` (post.py lines 55-82) -/

/-- One expansion record (the `types.SimpleNamespace` of the source):
element id, original node ids, expanded node ids. -/
structure Expansion where
  element : Int
  orig : List Int
  new : List Int
deriving DecidableEq

/-- Model of `read_expansion` from post.py: strip all lines, find every line
starting with `ELEMENT`, and for each such index `i` parse the element id
from line `i`, the original nodes from line `i+1`, and the expanded nodes
from lines `i+3` and `i+4` concatenated (line `i+2` is not consumed). -/
def read_expansion (lines0 : List String) : Option (List Expansion) :=
  let lines := lines0.map pyStrip
  let indices := (List.range lines.length).filter
    (fun n => startsW "ELEMENT" (lines.getD n ""))
  indices.mapM (fun i => do
    let tok ← (pySplit (lines.getD i "")).get? 1
    let el ← pyInt tok
    let l1 ← lines.get? (i + 1)
    let org ← (pySplit l1).mapM pyInt
    let l3 ← lines.get? (i + 3)
    let a ← (pySplit l3).mapM pyInt
    let l4 ← lines.get? (i + 4)
    let b ← (pySplit l4).mapM pyInt
    some ⟨el, org, a ++ b⟩)

/-! ### Stage 3: `new_displacements` (post.py lines 85-118)

The Python dictionary `newdisp` is modelled as an association list to which
pairs are appended only when the key is absent, which reproduces both the
first-assignment-wins behaviour and the insertion order.  The function is
polymorphic in the displacement type, exactly as the source (which merely
copies the values it is given). -/

/-- The fixed 15-entry dict `mapping` of the source, sending a local
expanded-node slot (0-14) to a local original-node slot (0-5); `none` models
the `KeyError` on any other key. -/
def mapping (x : Nat) : Option Nat :=
  List.lookup x
    [(0, 0), (1, 1), (2, 2), (3, 0), (4, 1), (5, 2), (6, 3), (7, 4),
     (8, 5), (9, 3), (10, 4), (11, 5), (12, 0), (13, 1), (14, 2)]

/-- The value `orig[org[mapping[x]]-1]` computed by the source for slot `x`
of record `e`; `none` models a `KeyError`/`IndexError` in that expression. -/
def lookupVal (orig : List α) (e : Expansion) (x : Nat) : Option α := do
  let m ← mapping x
  let o ← pyGet e.orig (m : Int)
  pyGet orig (o - 1)

/-- One iteration of the inner loop of `new_displacements`: given the state
of `newdisp` and a stream element `(e, x, n)`, insert `n` if absent.  The
right-hand side `orig[org[mapping[x]]-1]` is evaluated (and can raise) only
when `n` is not yet a key, as in the source. -/
def step (orig : List α) (nd : List (Int × α)) (p : Expansion × Nat × Int) :
    Option (List (Int × α)) :=
  if (nd.lookup p.2.2).isSome then some nd
  else (lookupVal orig p.1 p.2.1).map (fun d => nd ++ [(p.2.2, d)])

/-- The iteration order of the two nested loops of `new_displacements`:
all triples `(e, x, n)` with `e` a record and `(x, n)` in `enumerate(e.new)`. -/
def stream (expansion : List Expansion) : List (Expansion × Nat × Int) :=
  expansion.foldr (fun e acc => (pyEnumerate e.new).map (fun p => (e, p.1, p.2)) ++ acc) []

/-- Model of `new_displacements` from post.py: run the nested loops, then
return the pairs `(i, newdisp[i])` for `i` in `sorted(newdisp.keys())`. -/
def new_displacements (orig : List α) (expansion : List Expansion) :
    Option (List (Int × α)) := do
  let nd ← (stream expansion).foldlM (step orig) []
  let idx := List.insertionSort (· ≤ ·) (nd.map Prod.fst)
  some (idx.filterMap (fun k => (nd.lookup k).map (fun d => (k, d))))

/-! ### Stage 4: `splice` (post.py lines 121-138)

The format expression of the source is
`f' -1{node:>10d}{dx: 11.5E}{dy: 11.5E}{dz: 11.5E}\n'`.
The ` 11.5E` directive renders a value in scientific notation with one
leading digit, exactly 5 fractional digits, an `E`, an explicit exponent
sign and at least two exponent digits, preceded by a space for nonnegative
values and `-` for negative ones (the minimum field width 11 never forces
padding, since the rendered text is at least 12 characters).  The functions
below implement that rendering for the exact fractions of `PyFloat`, with
round-half-even rounding of the mantissa. -/

/-- Decimal digits of a natural number, most significant first (fuel-based
so that it reduces in the kernel). -/
def natDigitsGo : Nat → Nat → List Char
  | 0, _ => []
  | fuel + 1, a =>
    if a < 10 then [Nat.digitChar a]
    else natDigitsGo fuel (a / 10) ++ [Nat.digitChar (a % 10)]

/-- Decimal digits of a natural number, most significant first. -/
def natDigits (a : Nat) : List Char := natDigitsGo (a + 1) a

/-- Number of decimal digits of a natural number (1 for 0). -/
def numDigits (a : Nat) : Nat := (natDigits a).length

/-- Decimal exponent of the positive fraction `n / d`: the unique `e` with
`10 ^ e ≤ n / d < 10 ^ (e + 1)`. -/
def rexp (n d : Nat) : Int :=
  if d ≤ n then (numDigits (n / d) : Int) - 1
  else
    let f := numDigits (d / n) - 1
    if d ≤ n * 10 ^ f then -(f : Int) else -((f : Int) + 1)

/-- Round the nonnegative fraction `N / D` to the nearest natural number,
ties to even. -/
def rhe (N D : Nat) : Nat :=
  let q := N / D
  let r := N % D
  if 2 * r < D then q else if D < 2 * r then q + 1 else if q % 2 = 0 then q else q + 1

/-- The 6-digit scaled mantissa: `n / d * 10 ^ (5 - e)` rounded half-even. -/
def scaledMant (n d : Nat) (e : Int) : Nat :=
  if 0 ≤ e then rhe (n * 100000) (d * 10 ^ e.toNat)
  else rhe (n * 100000 * 10 ^ (-e).toNat) d

/-- Render the 6-digit mantissa `m` as `d.ddddd`. -/
def mantStr (m : Nat) : String :=
  String.mk [Nat.digitChar (m / 100000 % 10), '.', Nat.digitChar (m / 10000 % 10),
    Nat.digitChar (m / 1000 % 10), Nat.digitChar (m / 100 % 10),
    Nat.digitChar (m / 10 % 10), Nat.digitChar (m % 10)]

/-- Exponent digits, zero-padded to at least two digits as Python does. -/
def expDigits (a : Nat) : List Char := if a < 10 then ['0', Nat.digitChar a] else natDigits a

/-- Render the exponent with its explicit sign. -/
def expStr (e : Int) : String := String.mk ((if e < 0 then '-' else '+') :: expDigits e.natAbs)

/-- Model of the Python format directive `{v: 11.5E}` on an exact fraction. -/
def formatE (q : PyFloat) : String :=
  if q.num = 0 then " 0.00000E+00"
  else
    let sgn := if q.num < 0 then "-" else " "
    let n := q.num.natAbs
    let e0 := rexp n q.den
    let m0 := scaledMant n q.den e0
    let m := if 1000000 ≤ m0 then 100000 else m0
    let e := if 1000000 ≤ m0 then e0 + 1 else e0
    sgn ++ mantStr m ++ "E" ++ expStr e

/-- Model of Python right-justification in a field of `w` columns
(`{x:>10d}` on the rendered text). -/
def rjust (s : String) (w : Nat) : String :=
  String.mk (List.replicate (w - s.length) ' ') ++ s

/-- One record line written by `splice`:
`f' -1{node:>10d}{dx: 11.5E}{dy: 11.5E}{dz: 11.5E}\n'`. -/
def fmtRecord (node : Int) (dx dy dz : PyFloat) : String :=
  " -1" ++ rjust (toString node) 10 ++ formatE dx ++ formatE dy ++ formatE dz ++ "\n"

/-- Format one propagated pair.  The source unpacks `node, (dx, dy, dz)`;
`none` models the `ValueError` raised when the displacement is not a
3-sequence. -/
def fmtLine (p : Int × List PyFloat) : Option String :=
  match p with
  | (node, [dx, dy, dz]) => some (fmtRecord node dx dy dz)
  | _ => none

/-- The failures of `splice`, all raised before the output file is opened:
`noDisp` models the `IndexError` of `[..][0]` when no line contains `DISP`,
`noLine idx` the `IndexError` of `lines[idx]`, `wrongOffset idx` the
`ValueError('wrong offset: {idx}')` of the `-3` check, and `badRecord` the
unpacking `ValueError` in the formatting loop. -/
inductive SpliceError where
  | noDisp : SpliceError
  | noLine (idx : Nat) : SpliceError
  | wrongOffset (idx : Nat) : SpliceError
  | badRecord : SpliceError
deriving DecidableEq

/-- Model of `splice` from post.py.  The input is the line list of
`<base>.frd` (terminators included, as `readlines` keeps them); an `.ok`
result is the full line list written to `<base>-post.frd`, and an `.error`
result means the exception is raised before that file is opened, so no
output file is created or modified.  The input list is never changed. -/
def splice (lines : List String) (new : List (Int × List PyFloat)) :
    Except SpliceError (List String) :=
  match firstIdx (fun ln => containsSub "DISP" ln) lines with
  | none => .error .noDisp
  | some i =>
    let idx := i + 5
    match lines.get? idx with
    | none => .error (.noLine idx)
    | some ln =>
      if startsW "-3" (pyStrip ln) then
        match new.mapM fmtLine with
        | none => .error .badRecord
        | some spliced => .ok (lines.take idx ++ spliced ++ lines.drop idx)
      else .error (.wrongOffset idx)

/-! ### Orchestrator: `main` (post.py lines 141-155) -/

/-- The module docstring of post.py, printed by `main` when no base name is
given on the command line. -/
def usageText : String :=
  "Post-process OUTPUT=3D data to generate proper node displacement.\n\n" ++
  "This is used when the card *NODE FILE,OUTPUT=3D is used. That output format\n" ++
  "does *not* output displacements when specified.\n\n" ++
  "Instead, add a *NODE PRINT,NSET=Nall for displacement. This script then pulls\n" ++
  "the displacement data from the .dat file, and the link between original and\n" ++
  "expanded elements from the log file.\n\n" ++
  "Usage: \"python3 post.py <basename>\"\n"

/-- Observable outcome of one run of the program: `usageExit text code`
models printing `text` to standard output and exiting with status `code`;
`ok out` models writing the line list `out` to `<base>-post.frd` and exiting
with status 0; `uncaught` models an uncaught exception (non-zero exit, no
output file written by `splice`). -/
inductive MainResult where
  | usageExit (text : String) (code : Nat) : MainResult
  | ok (outputLines : List String) : MainResult
  | uncaught : MainResult
deriving DecidableEq

/-- Model of `main` from post.py (named `mainRun` since `main` is reserved in Lean).  `sysArgv` is the full `sys.argv` (element
0 is the program name); the three remaining arguments are the contents of
`<base>.dat`, `<base>.12d` and `<base>.frd`.  When fewer than 2 arguments
are present the function returns before touching any file, so the result
does not depend on the file contents. -/
def mainRun (sysArgv : List String) (datLines d12Lines frdLines : List String) :
    MainResult :=
  if sysArgv.length < 2 then .usageExit usageText 1
  else
    match read_displacements datLines with
    | none => .uncaught
    | some origDisp =>
      match read_expansion d12Lines with
      | none => .uncaught
      | some expansion =>
        match new_displacements origDisp expansion with
        | none => .uncaught
        | some nw =>
          match splice frdLines nw with
          | .error _ => .uncaught
          | .ok out => .ok out

/-! ### Specification-side predicate for the record format

`sciFormatSpec` renders the specification's wording "signed scientific
notation with 5 fractional digits (sign-or-space, then digits)" as a shape
predicate on strings, to be compared with the output of `formatE`. -/

/-- Shape of one ` 11.5E`-formatted field: a sign-or-space, one digit, a
point, exactly five digits, `E`, an exponent sign, and at least two exponent
digits. -/
def sciFormatSpec (s : String) : Prop :=
  ∃ (sgn d0 : Char) (frac : List Char) (esgn : Char) (ed : List Char),
    s.toList = sgn :: d0 :: '.' :: (frac ++ 'E' :: esgn :: ed) ∧
    (sgn = ' ' ∨ sgn = '-') ∧ d0.isDigit = true ∧ frac.length = 5 ∧
    (∀ c ∈ frac, c.isDigit = true) ∧ (esgn = '+' ∨ esgn = '-') ∧
    2 ≤ ed.length ∧ (∀ c ∈ ed, c.isDigit = true)

/-! ### Helper lemmas: `mapM` over `Option` -/

theorem mapM_some_spec {α β} (f : α → Option β) :
    ∀ (l : List α) (r : List β), l.mapM f = some r →
      r.length = l.length ∧ ∀ k, r.get? k = (l.get? k).bind f := by
  intro l
  induction l with
  | nil =>
    intro r h
    simp only [List.mapM_nil, pure, Option.some.injEq] at h
    subst h
    exact ⟨rfl, fun k => by cases k <;> rfl⟩
  | cons a l ih =>
    intro r h
    rw [List.mapM_cons] at h
    cases hfa : f a with
    | none => rw [hfa] at h; exact absurd h (by simp)
    | some b =>
      rw [hfa] at h
      cases hl : l.mapM f with
      | none => rw [hl] at h; exact absurd h (by simp)
      | some r' =>
        rw [hl] at h
        simp only [Option.bind_eq_bind, Option.some_bind, pure,
          Option.some.injEq] at h
        subst h
        obtain ⟨h1, h2⟩ := ih r' hl
        refine ⟨by simp [h1], fun k => ?_⟩
        cases k with
        | zero => simp [hfa]
        | succ k => simpa using h2 k

theorem mapM_isSome_of_forall {α β} (f : α → Option β) :
    ∀ (l : List α), (∀ a ∈ l, (f a).isSome = true) → ∃ r, l.mapM f = some r := by
  intro l
  induction l with
  | nil => intro _; exact ⟨[], rfl⟩
  | cons a l ih =>
    intro h
    obtain ⟨b, hb⟩ := Option.isSome_iff_exists.mp (h a (by simp))
    obtain ⟨r, hr⟩ := ih (fun x hx => h x (by simp [hx]))
    refine ⟨b :: r, ?_⟩
    rw [List.mapM_cons, hb, hr]
    rfl

theorem mapM_mem {α β} {f : α → Option β} {l : List α} {r : List β}
    (h : l.mapM f = some r) {a : α} (ha : a ∈ l) : ∃ b, f a = some b ∧ b ∈ r := by
  obtain ⟨n, hn⟩ := List.mem_iff_get?.mp ha
  obtain ⟨hlen, hget⟩ := mapM_some_spec f l r h
  have h2 := hget n
  rw [hn] at h2
  simp only [Option.some_bind] at h2
  cases hb : f a with
  | none =>
    rw [hb] at h2
    have hlt : n < l.length := by
      by_contra hge
      rw [List.get?_eq_none.mpr (not_lt.mp hge)] at hn
      exact absurd hn (by simp)
    rw [List.get?_eq_none] at h2
    omega
  | some b =>
    rw [hb] at h2
    exact ⟨b, rfl, List.get?_mem h2⟩

/-! ### Helper lemmas: `firstIdx` -/

theorem firstIdx_lt {p : α → Bool} :
    ∀ {l : List α} {i : Nat}, firstIdx p l = some i → i < l.length := by
  intro l
  induction l with
  | nil => intro i h; exact absurd h (by simp [firstIdx])
  | cons a l ih =>
    intro i h
    simp only [firstIdx] at h
    split at h
    · simp only [Option.some.injEq] at h
      simp [← h]
    · cases hj : firstIdx p l with
      | none => rw [hj] at h; exact absurd h (by simp)
      | some j =>
        rw [hj] at h
        simp only [Option.map_some', Option.some.injEq] at h
        have := ih hj
        simp only [List.length_cons]
        omega

/-! ### Helper lemmas: Python indexing -/

theorem pyGet_eq_none_iff (l : List α) (i : Int) :
    pyGet l i = none ↔ ((l.length : Int) ≤ i ∨ i < -(l.length : Int)) := by
  unfold pyGet
  by_cases hi : i < 0
  · simp only [hi, if_true]
    by_cases h0 : (0 : Int) ≤ (l.length : Int) + i
    · simp only [h0, if_true]
      by_cases h1 : (l.length : Int) + i < (l.length : Int)
      · simp only [h1, if_true]
        rw [List.get?_eq_none]
        omega
      · simp only [h1, if_false]
        simp only [true_iff]
        omega
    · simp only [h0, if_false, true_iff]
      omega
  · simp only [hi, if_false]
    by_cases h0 : (0 : Int) ≤ i
    · simp only [h0, if_true]
      by_cases h1 : i < (l.length : Int)
      · simp only [h1, if_true]
        rw [List.get?_eq_none]
        omega
      · simp only [h1, if_false, true_iff]
        omega
    · omega

theorem pyGet_nonneg (l : List α) (i : Int) (h0 : 0 ≤ i) :
    pyGet l i = l.get? i.toNat := by
  unfold pyGet
  simp only [not_lt.mpr h0, if_false, h0, if_true]
  by_cases h1 : i < (l.length : Int)
  · simp [h1]
  · simp only [h1, if_false]
    rw [eq_comm, List.get?_eq_none]
    omega

theorem pyGet_neg (l : List α) (i : Int) (hlow : -(l.length : Int) ≤ i) (hi : i < 0) :
    pyGet l i = l.get? ((l.length : Int) + i).toNat := by
  unfold pyGet
  have h0 : (0 : Int) ≤ (l.length : Int) + i := by omega
  have h1 : (l.length : Int) + i < (l.length : Int) := by omega
  simp [hi, h0, h1]

theorem pyGet_mem {l : List α} {i : Int} {a : α} (h : pyGet l i = some a) : a ∈ l := by
  by_cases hi : 0 ≤ i
  · rw [pyGet_nonneg l i hi] at h
    exact List.get?_mem h
  · by_cases hlow : -(l.length : Int) ≤ i
    · rw [pyGet_neg l i hlow (by omega)] at h
      exact List.get?_mem h
    · rw [(pyGet_eq_none_iff l i).mpr (Or.inr (by omega))] at h
      exact absurd h (by simp)

/-! ### Helper lemmas: association-list lookup -/

theorem lookup_append {α β} [BEq α] (l₁ l₂ : List (α × β)) (k : α) :
    (l₁ ++ l₂).lookup k = ((l₁.lookup k).or (l₂.lookup k)) := by
  induction l₁ with
  | nil => simp [List.lookup]
  | cons a l ih =>
    obtain ⟨a1, a2⟩ := a
    rw [List.cons_append, List.lookup_cons, List.lookup_cons]
    cases h : k == a1
    · simpa using ih
    · rfl

theorem lookup_eq_none_iff {α β} [BEq α] [LawfulBEq α] (l : List (α × β)) (k : α) :
    l.lookup k = none ↔ k ∉ l.map Prod.fst := by
  induction l with
  | nil => simp [List.lookup]
  | cons a l ih =>
    obtain ⟨a1, a2⟩ := a
    rw [List.lookup_cons]
    cases h : k == a1
    · rw [beq_eq_false_iff_ne] at h
      simpa [h] using ih
    · rw [beq_iff_eq] at h
      subst h
      simp

theorem lookup_isSome_iff_mem {α β} [BEq α] [LawfulBEq α] (l : List (α × β)) (k : α) :
    (l.lookup k).isSome = true ↔ k ∈ l.map Prod.fst := by
  constructor
  · intro h
    by_contra hk
    rw [← lookup_eq_none_iff] at hk
    rw [hk] at h
    exact absurd h (by simp)
  · intro h
    by_contra hn
    rw [Option.not_isSome_iff_eq_none] at hn
    exact absurd h ((lookup_eq_none_iff l k).mp hn)

/-! ### Helper lemmas: `enumFrom` and `stream` -/

theorem enumFrom_mem_iff {l : List α} :
    ∀ {i : Nat} {p : Nat × α}, p ∈ enumFrom i l ↔
      ∃ j, p.1 = i + j ∧ l.get? j = some p.2 := by
  induction l with
  | nil => intro i p; simp [enumFrom]
  | cons a l ih =>
    intro i p
    simp only [enumFrom, List.mem_cons]
    constructor
    · rintro (rfl | hm)
      · exact ⟨0, by simp⟩
      · obtain ⟨j, hj1, hj2⟩ := ih.mp hm
        exact ⟨j + 1, by omega, by simpa using hj2⟩
    · rintro ⟨j, hj1, hj2⟩
      cases j with
      | zero =>
        left
        obtain ⟨p1, p2⟩ := p
        simp only at hj1 hj2
        rw [List.get?_cons_zero] at hj2
        injection hj2 with h2
        subst h2
        simp [hj1]
      | succ j =>
        right
        exact ih.mpr ⟨j, by omega, by simpa using hj2⟩

theorem pyEnumerate_fst_lt {l : List α} {x : Nat} {a : α}
    (h : (x, a) ∈ pyEnumerate l) : x < l.length := by
  obtain ⟨j, hj1, hj2⟩ := enumFrom_mem_iff.mp h
  simp only at hj1
  have : j < l.length := by
    by_contra hge
    rw [List.get?_eq_none.mpr (not_lt.mp hge)] at hj2
    exact absurd hj2 (by simp)
  omega

theorem pyEnumerate_snd_mem {l : List α} {x : Nat} {a : α}
    (h : (x, a) ∈ pyEnumerate l) : a ∈ l := by
  obtain ⟨j, _, hj2⟩ := enumFrom_mem_iff.mp h
  exact List.get?_mem hj2

theorem mem_pyEnumerate_of_mem {l : List α} {a : α} (h : a ∈ l) :
    ∃ x, (x, a) ∈ pyEnumerate l := by
  obtain ⟨n, hn⟩ := List.mem_iff_get?.mp h
  exact ⟨n, enumFrom_mem_iff.mpr ⟨n, by omega, hn⟩⟩

theorem enumFrom_find?_of_mem [BEq α] [LawfulBEq α] {l : List α} {K : α} (h : K ∈ l) :
    ∀ i : Nat, ∃ x, (enumFrom i l).find? (fun q => q.2 == K) = some (x, K) := by
  induction l with
  | nil => exact absurd h (by simp)
  | cons a l ih =>
    intro i
    by_cases ha : a = K
    · subst ha
      exact ⟨i, by simp [enumFrom, List.find?_cons]⟩
    · have hK : K ∈ l := by
        rcases List.mem_cons.mp h with h' | h'
        · exact absurd h'.symm ha
        · exact h'
      obtain ⟨x, hx⟩ := ih hK (i + 1)
      refine ⟨x, ?_⟩
      rw [enumFrom, List.find?_cons]
      have : ((i, a).2 == K) = false := by simpa using ha
      rw [this]
      exact hx

theorem stream_nil : stream [] = [] := rfl

theorem stream_cons (e : Expansion) (l : List Expansion) :
    stream (e :: l) = (pyEnumerate e.new).map (fun p => (e, p.1, p.2)) ++ stream l := rfl

theorem stream_append (l₁ l₂ : List Expansion) :
    stream (l₁ ++ l₂) = stream l₁ ++ stream l₂ := by
  induction l₁ with
  | nil => simp [stream_nil]
  | cons e l ih => rw [List.cons_append, stream_cons, stream_cons, ih, List.append_assoc]

theorem stream_mem {exp : List Expansion} {p : Expansion × Nat × Int} :
    p ∈ stream exp ↔ ∃ e ∈ exp, ∃ q ∈ pyEnumerate e.new, p = (e, q.1, q.2) := by
  induction exp with
  | nil => simp [stream_nil]
  | cons e l ih =>
    rw [stream_cons, List.mem_append, ih]
    simp only [List.mem_map, List.mem_cons]
    constructor
    · rintro (⟨q, hq, rfl⟩ | ⟨e', he', q, hq, rfl⟩)
      · exact ⟨e, Or.inl rfl, q, hq, rfl⟩
      · exact ⟨e', Or.inr he', q, hq, rfl⟩
    · rintro ⟨e', he' | he', q, hq, rfl⟩
      · exact Or.inl ⟨q, by rw [he'] at hq ⊢; exact ⟨hq, rfl⟩⟩
      · exact Or.inr ⟨e', he', q, hq, rfl⟩

/-! ### Helper lemmas: the `new_displacements` fold -/

theorem lookup_singleton {α} (a k : Int) (d : α) :
    ([(a, d)].lookup k) = if k = a then some d else none := by
  rw [List.lookup_cons]
  by_cases h : k = a
  · simp [h]
  · have hb : (k == a) = false := by simpa using h
    simp [hb, h, List.lookup]

theorem step_preserves {α} (orig : List α) (nd nd' : List (Int × α))
    (p : Expansion × Nat × Int) (h : step orig nd p = some nd')
    (k : Int) (hk : (nd.lookup k).isSome = true) :
    nd'.lookup k = nd.lookup k := by
  by_cases h1 : (nd.lookup p.2.2).isSome = true
  · simp only [step, h1, if_true, Option.some.injEq] at h
    rw [← h]
  · simp only [step, h1, if_false, Bool.false_eq_true] at h
    cases hlv : lookupVal orig p.1 p.2.1 with
    | none => rw [hlv] at h; exact absurd h (by simp)
    | some d =>
      rw [hlv] at h
      simp only [Option.map_some', Option.some.injEq] at h
      subst h
      rw [lookup_append]
      obtain ⟨v, hv⟩ := Option.isSome_iff_exists.mp hk
      rw [hv]
      rfl

theorem foldlM_preserves {α} (orig : List α) :
    ∀ (s : List (Expansion × Nat × Int)) (nd nd' : List (Int × α)),
      s.foldlM (step orig) nd = some nd' →
      ∀ k, (nd.lookup k).isSome = true → nd'.lookup k = nd.lookup k := by
  intro s
  induction s with
  | nil =>
    intro nd nd' h k _
    cases h
    rfl
  | cons p s ih =>
    intro nd nd' h k hk
    rw [List.foldlM_cons] at h
    cases hstep : step orig nd p with
    | none => rw [hstep] at h; exact absurd h (by simp)
    | some nd1 =>
      rw [hstep] at h
      simp only [Option.bind_eq_bind, Option.some_bind] at h
      have h2 := step_preserves orig nd nd1 p hstep k hk
      have hk1 : (nd1.lookup k).isSome = true := by rw [h2]; exact hk
      rw [ih nd1 nd' h k hk1, h2]

theorem foldlM_key_iff {α} (orig : List α) :
    ∀ (s : List (Expansion × Nat × Int)) (nd nd' : List (Int × α)),
      s.foldlM (step orig) nd = some nd' →
      ∀ k, ((nd'.lookup k).isSome = true ↔
        ((nd.lookup k).isSome = true ∨ ∃ p ∈ s, p.2.2 = k)) := by
  intro s
  induction s with
  | nil =>
    intro nd nd' h k
    cases h
    simp
  | cons p s ih =>
    intro nd nd' h k
    rw [List.foldlM_cons] at h
    cases hstep : step orig nd p with
    | none => rw [hstep] at h; exact absurd h (by simp)
    | some nd1 =>
      rw [hstep] at h
      simp only [Option.bind_eq_bind, Option.some_bind] at h
      have base := ih nd1 nd' h k
      have hsplit : (∃ x ∈ p :: s, x.2.2 = k) ↔ (p.2.2 = k ∨ ∃ x ∈ s, x.2.2 = k) := by
        constructor
        · rintro ⟨x, hx, hxk⟩
          rcases List.mem_cons.mp hx with rfl | hx'
          · exact Or.inl hxk
          · exact Or.inr ⟨x, hx', hxk⟩
        · rintro (hx | ⟨x, hx', hxk⟩)
          · exact ⟨p, List.mem_cons_self p s, hx⟩
          · exact ⟨x, List.mem_cons_of_mem p hx', hxk⟩
      rw [hsplit]
      by_cases h1 : (nd.lookup p.2.2).isSome = true
      · simp only [step, h1, if_true, Option.some.injEq] at hstep
        subst hstep
        rw [base]
        constructor
        · rintro (hx | hx)
          · exact Or.inl hx
          · exact Or.inr (Or.inr hx)
        · rintro (hx | hx | hx)
          · exact Or.inl hx
          · left; rw [← hx]; exact h1
          · exact Or.inr hx
      · simp only [step, h1, if_false, Bool.false_eq_true] at hstep
        cases hlv : lookupVal orig p.1 p.2.1 with
        | none => rw [hlv] at hstep; exact absurd hstep (by simp)
        | some d =>
          rw [hlv] at hstep
          simp only [Option.map_some', Option.some.injEq] at hstep
          subst hstep
          rw [base, lookup_append, lookup_singleton]
          by_cases hk : k = p.2.2
          · have hsome : ((nd.lookup k).or (if k = p.2.2 then some d else none)).isSome
                = true := by
              rw [if_pos hk]
              cases nd.lookup k <;> rfl
            constructor
            · intro _
              exact Or.inr (Or.inl hk.symm)
            · intro _
              exact Or.inl hsome
          · rw [if_neg hk, Option.or_none]
            constructor
            · rintro (hx | hx)
              · exact Or.inl hx
              · exact Or.inr (Or.inr hx)
            · rintro (hx | hx | hx)
              · exact Or.inl hx
              · exact absurd hx.symm hk
              · exact Or.inr hx

theorem foldlM_firstOcc {α} (orig : List α) :
    ∀ (s : List (Expansion × Nat × Int)) (nd nd' : List (Int × α)),
      s.foldlM (step orig) nd = some nd' →
      ∀ k, nd.lookup k = none →
        nd'.lookup k = ((s.find? (fun p => p.2.2 == k)).bind
          (fun p => lookupVal orig p.1 p.2.1)) := by
  intro s
  induction s with
  | nil =>
    intro nd nd' h k hk
    cases h
    simpa using hk
  | cons p s ih =>
    intro nd nd' h k hk
    rw [List.foldlM_cons] at h
    cases hstep : step orig nd p with
    | none => rw [hstep] at h; exact absurd h (by simp)
    | some nd1 =>
      rw [hstep] at h
      simp only [Option.bind_eq_bind, Option.some_bind] at h
      rw [List.find?_cons]
      by_cases h1 : (nd.lookup p.2.2).isSome = true
      · simp only [step, h1, if_true, Option.some.injEq] at hstep
        subst hstep
        have hne : p.2.2 ≠ k := by
          intro he
          rw [he, hk] at h1
          exact absurd h1 (by simp)
        have hb : (p.2.2 == k) = false := by simpa using hne
        rw [hb]
        exact ih _ nd' h k hk
      · simp only [step, h1, if_false, Bool.false_eq_true] at hstep
        cases hlv : lookupVal orig p.1 p.2.1 with
        | none => rw [hlv] at hstep; exact absurd hstep (by simp)
        | some d =>
          rw [hlv] at hstep
          simp only [Option.map_some', Option.some.injEq] at hstep
          subst hstep
          by_cases hkp : p.2.2 = k
          · have hb : (p.2.2 == k) = true := by simpa using hkp
            rw [hb]
            simp only [Option.some_bind, hlv]
            have hk1 : ((nd ++ [(p.2.2, d)]).lookup k).isSome = true := by
              rw [lookup_append, lookup_singleton, hk, if_pos hkp.symm]
              rfl
            rw [foldlM_preserves orig s _ nd' h k hk1]
            rw [lookup_append, lookup_singleton, hk, if_pos hkp.symm]
            rfl
          · have hb : (p.2.2 == k) = false := by simpa using hkp
            rw [hb]
            have hk1 : (nd ++ [(p.2.2, d)]).lookup k = none := by
              rw [lookup_append, lookup_singleton, hk,
                if_neg (fun he => hkp he.symm)]
              rfl
            exact ih _ nd' h k hk1

theorem foldlM_nodup {α} (orig : List α) :
    ∀ (s : List (Expansion × Nat × Int)) (nd nd' : List (Int × α)),
      s.foldlM (step orig) nd = some nd' →
      (nd.map Prod.fst).Nodup → (nd'.map Prod.fst).Nodup := by
  intro s
  induction s with
  | nil =>
    intro nd nd' h hn
    cases h
    exact hn
  | cons p s ih =>
    intro nd nd' h hn
    rw [List.foldlM_cons] at h
    cases hstep : step orig nd p with
    | none => rw [hstep] at h; exact absurd h (by simp)
    | some nd1 =>
      rw [hstep] at h
      simp only [Option.bind_eq_bind, Option.some_bind] at h
      refine ih nd1 nd' h ?_
      by_cases h1 : (nd.lookup p.2.2).isSome = true
      · simp only [step, h1, if_true, Option.some.injEq] at hstep
        rw [← hstep]
        exact hn
      · simp only [step, h1, if_false, Bool.false_eq_true] at hstep
        cases hlv : lookupVal orig p.1 p.2.1 with
        | none => rw [hlv] at hstep; exact absurd hstep (by simp)
        | some d =>
          rw [hlv] at hstep
          simp only [Option.map_some', Option.some.injEq] at hstep
          subst hstep
          rw [List.map_append, List.nodup_append]
          refine ⟨hn, by simp, ?_⟩
          rw [List.map_singleton, List.disjoint_singleton]
          rw [← lookup_eq_none_iff]
          cases hx : nd.lookup p.2.2
          · rfl
          · exact absurd (by rw [hx]; rfl) h1

theorem foldlM_total {α} (orig : List α) :
    ∀ (s : List (Expansion × Nat × Int)) (nd : List (Int × α)),
      (∀ p ∈ s, (lookupVal orig p.1 p.2.1).isSome = true) →
      ∃ nd', s.foldlM (step orig) nd = some nd' := by
  intro s
  induction s with
  | nil => intro nd _; exact ⟨nd, rfl⟩
  | cons p s ih =>
    intro nd hall
    by_cases h1 : (nd.lookup p.2.2).isSome = true
    · obtain ⟨nd', hnd'⟩ := ih nd (fun q hq => hall q (List.mem_cons_of_mem p hq))
      refine ⟨nd', ?_⟩
      rw [List.foldlM_cons]
      have : step orig nd p = some nd := by simp [step, h1]
      rw [this]
      simpa using hnd'
    · obtain ⟨d, hd⟩ := Option.isSome_iff_exists.mp (hall p (List.mem_cons_self p s))
      obtain ⟨nd', hnd'⟩ := ih (nd ++ [(p.2.2, d)])
        (fun q hq => hall q (List.mem_cons_of_mem p hq))
      refine ⟨nd', ?_⟩
      rw [List.foldlM_cons]
      have : step orig nd p = some (nd ++ [(p.2.2, d)]) := by
        simp [step, h1, hd]
      rw [this]
      simpa using hnd'

/-! ### Helper lemmas: assembling the output of `new_displacements` -/

theorem new_displacements_inv {α} (orig : List α) (exp : List Expansion)
    (out : List (Int × α)) (h : new_displacements orig exp = some out) :
    ∃ nd, (stream exp).foldlM (step orig) [] = some nd ∧
      out = (List.insertionSort (· ≤ ·) (nd.map Prod.fst)).filterMap
        (fun k => (nd.lookup k).map (fun d => (k, d))) := by
  unfold new_displacements at h
  cases hnd : (stream exp).foldlM (step orig) [] with
  | none => rw [hnd] at h; exact absurd h (by simp)
  | some nd =>
    rw [hnd] at h
    simp only [Option.bind_eq_bind, Option.some_bind, Option.some.injEq] at h
    exact ⟨nd, rfl, h.symm⟩

theorem filterMap_assoc_lookup {α} (nd : List (Int × α)) :
    ∀ (keys : List Int), keys.Nodup →
      ∀ k, ((keys.filterMap (fun k => (nd.lookup k).map (fun d => (k, d)))).lookup k)
        = if k ∈ keys then nd.lookup k else none := by
  intro keys
  induction keys with
  | nil => intro _ k; simp [List.lookup]
  | cons k0 ks ih =>
    intro hnd k
    rw [List.nodup_cons] at hnd
    obtain ⟨hk0, hks⟩ := hnd
    rw [List.filterMap_cons]
    cases h0 : nd.lookup k0 with
    | none =>
      simp only [Option.map_none']
      rw [ih hks k]
      by_cases hk : k = k0
      · subst hk
        simp [hk0, h0]
      · simp [List.mem_cons, hk]
    | some v =>
      simp only [Option.map_some']
      rw [List.lookup_cons]
      cases hb : k == k0
      · have hne : k ≠ k0 := by simpa using hb
        simp only []
        rw [ih hks k]
        simp [List.mem_cons, hne]
      · have heq : k = k0 := by simpa using hb
        subst heq
        simp [h0]

theorem filterMap_assoc_fst {α} (nd : List (Int × α)) :
    ∀ (keys : List Int), (∀ k ∈ keys, (nd.lookup k).isSome = true) →
      (keys.filterMap (fun k => (nd.lookup k).map (fun d => (k, d)))).map Prod.fst
        = keys := by
  intro keys
  induction keys with
  | nil => intro _; rfl
  | cons k0 ks ih =>
    intro hall
    rw [List.filterMap_cons]
    obtain ⟨v, hv⟩ := Option.isSome_iff_exists.mp (hall k0 (List.mem_cons_self k0 ks))
    rw [hv]
    simp only [Option.map_some', List.map_cons]
    rw [ih (fun k hk => hall k (List.mem_cons_of_mem k0 hk))]

theorem new_displacements_lookup {α} {orig : List α} {exp : List Expansion}
    {out : List (Int × α)} (h : new_displacements orig exp = some out) :
    ∃ nd, (stream exp).foldlM (step orig) [] = some nd ∧
      (∀ k, out.lookup k = nd.lookup k) ∧
      out.map Prod.fst = List.insertionSort (· ≤ ·) (nd.map Prod.fst) := by
  obtain ⟨nd, hnd, hout⟩ := new_displacements_inv orig exp out h
  have hperm := List.perm_insertionSort (· ≤ · : Int → Int → Prop) (nd.map Prod.fst)
  have hnodup : (nd.map Prod.fst).Nodup := foldlM_nodup orig _ [] nd hnd (by simp)
  have hknodup : (List.insertionSort (· ≤ ·) (nd.map Prod.fst)).Nodup :=
    hperm.symm.nodup hnodup
  refine ⟨nd, hnd, ?_, ?_⟩
  · intro k
    rw [hout, filterMap_assoc_lookup nd _ hknodup k]
    by_cases hk : k ∈ List.insertionSort (· ≤ ·) (nd.map Prod.fst)
    · rw [if_pos hk]
    · rw [if_neg hk]
      rw [hperm.mem_iff] at hk
      rw [eq_comm, lookup_eq_none_iff]
      exact hk
  · rw [hout]
    exact filterMap_assoc_fst nd _ (fun k hk => by
      rw [lookup_isSome_iff_mem]
      exact hperm.mem_iff.mp hk)

theorem lookup_eq_some_iff_mem {α β} [BEq α] [LawfulBEq α] :
    ∀ (l : List (α × β)), (l.map Prod.fst).Nodup → ∀ (k : α) (v : β),
      (l.lookup k = some v ↔ (k, v) ∈ l) := by
  intro l
  induction l with
  | nil => intro _ k v; simp [List.lookup]
  | cons a l ih =>
    intro hn k v
    obtain ⟨a1, a2⟩ := a
    rw [List.map_cons, List.nodup_cons] at hn
    obtain ⟨ha1, hl⟩ := hn
    rw [List.lookup_cons]
    cases hb : k == a1
    · have hne : k ≠ a1 := by simpa using hb
      rw [ih hl k v, List.mem_cons]
      constructor
      · exact Or.inr
      · rintro (he | he)
        · exact absurd (congrArg Prod.fst he) hne
        · exact he
    · have heq : k = a1 := by simpa using hb
      subst heq
      simp only [Option.some.injEq, List.mem_cons, Prod.mk.injEq, true_and]
      constructor
      · intro he
        exact Or.inl he.symm
      · rintro (he | he)
        · exact he.symm
        · exact absurd (List.mem_map_of_mem Prod.fst he) ha1

theorem lookupVal_eq_some_iff {α} (orig : List α) (e : Expansion) (x : Nat) (d : α) :
    lookupVal orig e x = some d ↔
      ∃ m o, mapping x = some m ∧ pyGet e.orig (m : Int) = some o ∧
        pyGet orig (o - 1) = some d := by
  unfold lookupVal
  cases hm : mapping x with
  | none => simp [hm]
  | some m =>
    simp only [Option.bind_eq_bind, Option.some_bind]
    cases ho : pyGet e.orig (m : Int) with
    | none => simp [ho]
    | some o => simp [ho]

/-- C1: for every original-displacement sequence and every expansion-record
sequence (over any displacement type), whenever `new_displacements`
succeeds, the displacement recorded for a new-node id `n` is exactly the
value obtained at the first stream position `(e, x, n)` that mentions `n`:
the untransformed element `orig[e.orig[mapping[x]] - 1]` (1-based lookup,
modelled by `pyGet orig (o - 1)`); and `mapping` is exactly the fixed
15-entry table of the source. -/
theorem C1_first_assignment {α} (orig : List α) (expansion : List Expansion)
    (out : List (Int × α)) (h : new_displacements orig expansion = some out) :
    (∀ (n : Int) (d : α), out.lookup n = some d →
      ∃ e x m o, (stream expansion).find? (fun p => p.2.2 == n) = some (e, x, n) ∧
        mapping x = some m ∧ pyGet e.orig (m : Int) = some o ∧
        pyGet orig (o - 1) = some d) ∧
    (∀ x m, mapping x = some m ↔
      (x, m) ∈ [(0, 0), (1, 1), (2, 2), (3, 0), (4, 1), (5, 2), (6, 3), (7, 4),
        (8, 5), (9, 3), (10, 4), (11, 5), (12, 0), (13, 1), (14, 2)]) := by
  constructor
  · intro n d hnd
    obtain ⟨nd, hnd', hlk, -⟩ := new_displacements_lookup h
    rw [hlk n] at hnd
    rw [foldlM_firstOcc orig _ [] nd hnd' n rfl] at hnd
    cases hf : (stream expansion).find? (fun p => p.2.2 == n) with
    | none => rw [hf] at hnd; exact absurd hnd (by simp)
    | some p =>
      rw [hf] at hnd
      simp only [Option.some_bind] at hnd
      have hp := List.find?_some hf
      have hpn : p.2.2 = n := by simpa using hp
      obtain ⟨m, o, hm, ho, hd⟩ := (lookupVal_eq_some_iff orig p.1 p.2.1 d).mp hnd
      refine ⟨p.1, p.2.1, m, o, ?_, hm, ho, hd⟩
      have hpe : (p.1, p.2.1, n) = p := by rw [← hpn]
      exact congrArg some hpe.symm
  · intro x m
    exact (lookup_eq_some_iff_mem _ (by decide) x m)

/-- Witness for C1 at a concrete input: `orig = [10]`, one record with
`orig = [1, 1]` and `new = [3, 2]`; the displacement assigned to new node 3
comes from slot 0, i.e. `orig[e.orig[mapping[0]] - 1] = orig[0] = 10`. -/
theorem C1_first_assignment_witness :
    ∃ e x m o,
      (stream [⟨1, [1, 1], [3, 2]⟩]).find? (fun p => p.2.2 == (3 : Int))
        = some (e, x, 3) ∧
      mapping x = some m ∧ pyGet (e : Expansion).orig (m : Int) = some o ∧
      pyGet [(10 : Nat)] (o - 1) = some 10 :=
  (C1_first_assignment [(10 : Nat)] [⟨1, [1, 1], [3, 2]⟩] [(2, 10), (3, 10)]
    (by decide)).1 3 10 (by decide)

/-- C2: first-seen-wins.  If no record before `e₁` mentions the new-node id
`K` and `e₁` does, then the displacement recorded for `K` is the value
derived from `e₁` at its first slot mentioning `K`, and it does not depend
on the records that follow `e₁` — any continuation `rest'` yields the same
value, with no conflict detection. -/
theorem C2_first_seen_wins {α} (orig : List α) (pre : List Expansion)
    (e₁ : Expansion) (rest rest' : List Expansion) (K : Int)
    (hpre : ∀ e ∈ pre, K ∉ e.new) (hK : K ∈ e₁.new)
    (out out' : List (Int × α))
    (h : new_displacements orig (pre ++ e₁ :: rest) = some out)
    (h' : new_displacements orig (pre ++ e₁ :: rest') = some out') :
    ∃ x, (pyEnumerate e₁.new).find? (fun q => q.2 == K) = some (x, K) ∧
      out.lookup K = lookupVal orig e₁ x ∧ out'.lookup K = lookupVal orig e₁ x := by
  obtain ⟨x, hx0⟩ := enumFrom_find?_of_mem hK 0
  have hx : (pyEnumerate e₁.new).find? (fun q => q.2 == K) = some (x, K) := hx0
  refine ⟨x, hx, ?_⟩
  have key : ∀ (rest₀ : List Expansion) (out₀ : List (Int × α)),
      new_displacements orig (pre ++ e₁ :: rest₀) = some out₀ →
      out₀.lookup K = lookupVal orig e₁ x := by
    intro rest₀ out₀ h₀
    obtain ⟨nd, hnd', hlk, -⟩ := new_displacements_lookup h₀
    rw [hlk K, foldlM_firstOcc orig _ [] nd hnd' K rfl]
    rw [stream_append, stream_cons, List.find?_append, List.find?_append]
    have hprenone : (stream pre).find? (fun p => p.2.2 == K) = none := by
      rw [List.find?_eq_none]
      intro p hp
      obtain ⟨e, he, q, hq, rfl⟩ := stream_mem.mp hp
      obtain ⟨q1, q2⟩ := q
      have hmem : q2 ∈ e.new := pyEnumerate_snd_mem hq
      have hne : q2 ≠ K := fun hc => hpre e he (hc ▸ hmem)
      simpa using hne
    rw [hprenone, Option.none_or]
    rw [List.find?_map]
    have hcomp : ((fun p : Expansion × Nat × Int => p.2.2 == K) ∘
        (fun p : Nat × Int => (e₁, p.1, p.2))) = (fun q : Nat × Int => q.2 == K) := rfl
    rw [hcomp, hx]
    rfl
  exact ⟨key rest out h, key rest' out' h'⟩

/-- Witness for C2 at a concrete input: `orig = [10, 20]`, `e₁` maps new
node 7 to original node 1 (value 10); a later record that would map node 7
to original node 2 (value 20) is ignored. -/
theorem C2_first_seen_wins_witness :
    ∃ x, (pyEnumerate (⟨1, [1, 1], [7, 7]⟩ : Expansion).new).find?
        (fun q => q.2 == (7 : Int)) = some (x, 7) ∧
      List.lookup (7 : Int) [((7 : Int), (10 : Nat))]
        = lookupVal [(10 : Nat), 20] ⟨1, [1, 1], [7, 7]⟩ x ∧
      List.lookup (7 : Int) [((7 : Int), (10 : Nat))]
        = lookupVal [(10 : Nat), 20] ⟨1, [1, 1], [7, 7]⟩ x :=
  C2_first_seen_wins [(10 : Nat), 20] [] ⟨1, [1, 1], [7, 7]⟩ [] [⟨2, [2, 2], [7]⟩]
    7 (by decide) (by decide) [(7, 10)] [(7, 10)] (by decide) (by decide)

/-- C7: whenever `new_displacements` succeeds, its output is sorted strictly
ascending by node id, and the set of node ids is exactly the set of
new-node ids occurring across all expansion records (each appearing once,
which strict sortedness entails). -/
theorem C7_sorted_cover {α} (orig : List α) (expansion : List Expansion)
    (out : List (Int × α)) (h : new_displacements orig expansion = some out) :
    List.Sorted (· < ·) (out.map Prod.fst) ∧
    (∀ n : Int, n ∈ out.map Prod.fst ↔ ∃ e ∈ expansion, n ∈ e.new) := by
  obtain ⟨nd, hnd, hlk, hfst⟩ := new_displacements_lookup h
  have hperm := List.perm_insertionSort (· ≤ · : Int → Int → Prop) (nd.map Prod.fst)
  have hnodup : (nd.map Prod.fst).Nodup := foldlM_nodup orig _ [] nd hnd (by simp)
  constructor
  · rw [hfst]
    refine List.Sorted.lt_of_le ?_ (hperm.symm.nodup hnodup)
    exact List.sorted_insertionSort (· ≤ ·) (nd.map Prod.fst)
  · intro n
    rw [hfst, hperm.mem_iff, ← lookup_isSome_iff_mem,
      foldlM_key_iff orig _ [] nd hnd n]
    simp only [List.lookup, Option.isSome_none, Bool.false_eq_true, false_or]
    constructor
    · rintro ⟨p, hp, hpn⟩
      obtain ⟨e, he, q, hq, rfl⟩ := stream_mem.mp hp
      refine ⟨e, he, ?_⟩
      obtain ⟨q1, q2⟩ := q
      simp only at hpn
      rw [← hpn]
      exact pyEnumerate_snd_mem hq
    · rintro ⟨e, he, hn⟩
      obtain ⟨x, hx⟩ := mem_pyEnumerate_of_mem hn
      exact ⟨(e, x, n), stream_mem.mpr ⟨e, he, (x, n), hx, rfl⟩, rfl⟩

/-- Witness for C7 at a concrete input: the record lists its new nodes as
`[3, 2]`, and the output comes back as `[(2, _), (3, _)]`, strictly
ascending, covering exactly those two ids. -/
theorem C7_sorted_cover_witness :
    List.Sorted (· < ·) (([((2 : Int), (10 : Nat)), (3, 10)]).map Prod.fst) ∧
    ((3 : Int) ∈ ([((2 : Int), (10 : Nat)), (3, 10)]).map Prod.fst ↔
      ∃ e ∈ [(⟨1, [1, 1], [3, 2]⟩ : Expansion)], (3 : Int) ∈ e.new) :=
  ⟨(C7_sorted_cover [(10 : Nat)] [⟨1, [1, 1], [3, 2]⟩] [(2, 10), (3, 10)]
      (by decide)).1,
   (C7_sorted_cover [(10 : Nat)] [⟨1, [1, 1], [3, 2]⟩] [(2, 10), (3, 10)]
      (by decide)).2 3⟩

/-- C10 counterexample: the claim allows any negative id not smaller than
`-len(orig)`, but at `id = -len(orig)` the lookup index `id - 1` is
`-len(orig) - 1`, which is out of range even for Python's negative indexing.
Concretely, with a single original displacement and a record whose `orig`
entries are all `-1`, the expression `orig[-1 - 1] = orig[-2]` raises
`IndexError` and `new_displacements` fails, contradicting the claim's "does
not fail"; likewise this failure happens with `id - 1 = -2 < 1 = len(orig)`,
contradicting "an index error is raised only when id - 1 is at least
len(orig)". -/
theorem C10_counterexample :
    new_displacements [(7 : Nat)] [⟨1, [-1, -1, -1, -1, -1, -1],
      [10, 11, 12, 13, 14, 15, 16, 17, 18, 19, 20, 21, 22, 23, 24]⟩]
      = none := by decide

/-- C10 (amended): if every `orig` entry `id` of a (6, 15)-shaped record
satisfies `-len(orig) < id ≤ len(orig)`, `new_displacements` does not fail;
for `-len(orig) < id ≤ 0` the 1-based lookup `orig[id - 1]` silently wraps
around to the element at offset `len(orig) + id - 1` from the start (i.e. a
node counted from the end); and an index error arises exactly when
`id - 1 ≥ len(orig)` or `id - 1 < -len(orig)`, so the lookup is meaningful
only under `1 ≤ id ≤ len(orig)`. -/
theorem C10_negative_wraparound {α} (orig : List α) (e : Expansion)
    (h6 : e.orig.length = 6) (h15 : e.new.length = 15)
    (hids : ∀ id ∈ e.orig, -(orig.length : Int) < id ∧ id ≤ (orig.length : Int)) :
    (∃ out, new_displacements orig [e] = some out) ∧
    (∀ id : Int, -(orig.length : Int) < id → id ≤ 0 →
      pyGet orig (id - 1) = orig.get? ((orig.length : Int) + id - 1).toNat) ∧
    (∀ id : Int, pyGet orig (id - 1) = none ↔
      ((orig.length : Int) ≤ id - 1 ∨ id - 1 < -(orig.length : Int))) := by
  refine ⟨?_, ?_, ?_⟩
  · have hmap : ∀ x, x < 15 → (mapping x).isSome = true ∧ (mapping x).getD 0 < 6 := by
      decide
    have hall : ∀ p ∈ stream [e], (lookupVal orig p.1 p.2.1).isSome = true := by
      intro p hp
      rw [stream_cons, stream_nil, List.append_nil] at hp
      obtain ⟨q, hq, rfl⟩ := List.mem_map.mp hp
      obtain ⟨q1, q2⟩ := q
      have hx : q1 < 15 := by
        have hlt := pyEnumerate_fst_lt hq
        omega
      obtain ⟨hm1, hm2⟩ := hmap q1 hx
      obtain ⟨m, hm⟩ := Option.isSome_iff_exists.mp hm1
      have hm6 : m < 6 := by rw [hm] at hm2; simpa using hm2
      have ho : ∃ o, pyGet e.orig (m : Int) = some o := by
        rw [pyGet_nonneg _ _ (Int.natCast_nonneg m)]
        cases hgo : List.get? e.orig (Int.toNat (m : Int)) with
        | none =>
          rw [List.get?_eq_none] at hgo
          exact absurd hgo (by omega)
        | some o => exact ⟨o, rfl⟩
      obtain ⟨o, ho⟩ := ho
      have hoe : o ∈ e.orig := pyGet_mem ho
      obtain ⟨hlow, hhigh⟩ := hids o hoe
      have hd : ∃ dd, pyGet orig (o - 1) = some dd := by
        have hne : ¬(pyGet orig (o - 1) = none) := by
          rw [pyGet_eq_none_iff]
          omega
        cases hdd : pyGet orig (o - 1) with
        | none => exact absurd hdd hne
        | some dd => exact ⟨dd, rfl⟩
      obtain ⟨dd, hd⟩ := hd
      have hlv : lookupVal orig e q1 = some dd :=
        (lookupVal_eq_some_iff orig e q1 dd).mpr ⟨m, o, hm, ho, hd⟩
      rw [hlv]
      rfl
    obtain ⟨nd, hnd⟩ := foldlM_total orig (stream [e]) [] hall
    refine ⟨(List.insertionSort (· ≤ ·) (nd.map Prod.fst)).filterMap
      (fun k => (nd.lookup k).map (fun d => (k, d))), ?_⟩
    unfold new_displacements
    rw [hnd]
    rfl
  · intro id h1 h2
    rw [pyGet_neg orig (id - 1) (by omega) (by omega)]
    congr 1
    omega
  · intro id
    exact pyGet_eq_none_iff orig (id - 1)

/-- Witness for the amended C10 at a concrete input: two original
displacements, a record whose `orig` entries are all 0; the run succeeds,
and `orig[0 - 1]` wraps to the last element (offset `2 + 0 - 1 = 1`). -/
theorem C10_negative_wraparound_witness :
    (∃ out, new_displacements [(7 : Nat), 8] [⟨1, [0, 0, 0, 0, 0, 0],
        [10, 11, 12, 13, 14, 15, 16, 17, 18, 19, 20, 21, 22, 23, 24]⟩]
        = some out) ∧
    pyGet [(7 : Nat), 8] ((0 : Int) - 1)
      = [(7 : Nat), 8].get? (Int.toNat (((2 : Nat) : Int) + 0 - 1)) := by
  have h := C10_negative_wraparound [(7 : Nat), 8]
    ⟨1, [0, 0, 0, 0, 0, 0],
      [10, 11, 12, 13, 14, 15, 16, 17, 18, 19, 20, 21, 22, 23, 24]⟩
    (by decide) (by decide) (by decide)
  exact ⟨h.1, h.2.1 0 (by decide) (by decide)⟩

/-! ### Claims about `splice` -/

/-- C3: the anchor index is (index of the first line containing `DISP`) + 5,
and when the line at that index, stripped, does not start with `-3`, `splice`
fails with the `ValueError` carrying that computed index.  In the model an
`.error` result is returned before the output lines are ever assembled, which
is exactly the source situation: the check at post.py line 129 precedes the
`open(base+'-post.frd', 'wt')` at line 137, so no output file is created or
modified. -/
theorem C3_splice_check_fails {lines : List String}
    {new : List (Int × List PyFloat)} {i : Nat} {ln : String}
    (hfind : firstIdx (fun l => containsSub "DISP" l) lines = some i)
    (hline : lines.get? (i + 5) = some ln)
    (hbad : startsW "-3" (pyStrip ln) = false) :
    splice lines new = .error (.wrongOffset (i + 5)) := by
  unfold splice
  rw [hfind]
  simp only [hline, hbad, Bool.false_eq_true, if_false]

/-- Witness for C3 at a concrete input: the line five after the `DISP` line
is `nope`, so splicing fails with `wrongOffset 5` and produces no output. -/
theorem C3_splice_check_fails_witness :
    splice ["xDISPx", "a", "b", "c", "d", "nope"] [] = .error (.wrongOffset 5) :=
  @C3_splice_check_fails ["xDISPx", "a", "b", "c", "d", "nope"] [] 0 "nope"
    (by decide) (by decide) (by decide)

/-- C4: when the anchor-line check passes and every propagated record is a
`(node, (dx, dy, dz))` triple, `splice` succeeds and the output is exactly
the original lines before the anchor, then one formatted line per record,
then the original lines from the anchor on, verbatim; its length is the
original length plus the number of records, and the original line list is a
sublist of the output (all original lines present, unmodified, in order).
The input list itself is untouched (the model is pure, as is the source,
which only reads `<base>.frd`). -/
theorem C4_splice_inserts {lines : List String}
    {new : List (Int × List PyFloat)} {i : Nat} {ln : String}
    (hfind : firstIdx (fun l => containsSub "DISP" l) lines = some i)
    (hline : lines.get? (i + 5) = some ln)
    (hok : startsW "-3" (pyStrip ln) = true)
    (htriples : ∀ p ∈ new, ∃ dx dy dz, p.2 = [dx, dy, dz]) :
    ∃ spliced, new.mapM fmtLine = some spliced ∧ spliced.length = new.length ∧
      splice lines new = .ok (lines.take (i + 5) ++ spliced ++ lines.drop (i + 5)) ∧
      (lines.take (i + 5) ++ spliced ++ lines.drop (i + 5)).length
        = lines.length + new.length ∧
      lines.Sublist (lines.take (i + 5) ++ spliced ++ lines.drop (i + 5)) := by
  have hfmts : ∀ p ∈ new, (fmtLine p).isSome = true := by
    intro p hp
    obtain ⟨dx, dy, dz, h2⟩ := htriples p hp
    obtain ⟨n, d⟩ := p
    simp only at h2
    subst h2
    rfl
  obtain ⟨spliced, hsp⟩ := mapM_isSome_of_forall fmtLine new hfmts
  have hlen := (mapM_some_spec fmtLine new spliced hsp).1
  refine ⟨spliced, hsp, hlen, ?_, ?_, ?_⟩
  · unfold splice
    rw [hfind]
    simp only [hline, hok, if_true, hsp]
  · simp only [List.length_append, List.length_take, List.length_drop, hlen]
    omega
  · have h1 : (lines.drop (i + 5)).Sublist (spliced ++ lines.drop (i + 5)) :=
      List.sublist_append_right _ _
    have h2 := h1.append_left (lines.take (i + 5))
    rw [List.take_append_drop] at h2
    rw [List.append_assoc]
    exact h2

/-- Witness for C4 at a concrete input: one record is spliced in right
before the anchor line, and every original line survives verbatim. -/
theorem C4_splice_inserts_witness :
    ∃ spliced,
      ([((1 : Int), [(⟨0, 1⟩ : PyFloat), ⟨0, 1⟩, ⟨0, 1⟩])]).mapM fmtLine
        = some spliced ∧
      spliced.length = 1 ∧
      splice ["xDISPx", "a", "b", "c", "d", " -3 z"]
          [((1 : Int), [(⟨0, 1⟩ : PyFloat), ⟨0, 1⟩, ⟨0, 1⟩])]
        = .ok (["xDISPx", "a", "b", "c", "d"].take 5 ++ spliced ++
            ["xDISPx", "a", "b", "c", "d", " -3 z"].drop 5) ∧
      True := by
  obtain ⟨spliced, h1, h2, h3, -, -⟩ :=
    @C4_splice_inserts ["xDISPx", "a", "b", "c", "d", " -3 z"]
      [((1 : Int), [(⟨0, 1⟩ : PyFloat), ⟨0, 1⟩, ⟨0, 1⟩])] 0
      " -3 z" (by decide) (by decide) (by decide)
      (fun p hp => by
        simp only [List.mem_singleton] at hp
        exact ⟨⟨0, 1⟩, ⟨0, 1⟩, ⟨0, 1⟩, by rw [hp]⟩)
  exact ⟨spliced, h1, h2, h3, trivial⟩

/-! ### Helper lemmas: structure of the ` 11.5E` rendering -/

theorem digitChar_isDigit (d : Nat) (h : d < 10) : (Nat.digitChar d).isDigit = true := by
  interval_cases d <;> decide

theorem natDigitsGo_digits :
    ∀ (fuel a : Nat), ∀ c ∈ natDigitsGo fuel a, c.isDigit = true := by
  intro fuel
  induction fuel with
  | zero => intro a c hc; exact absurd hc (by simp [natDigitsGo])
  | succ f ih =>
    intro a c hc
    rw [natDigitsGo] at hc
    by_cases h : a < 10
    · rw [if_pos h] at hc
      simp only [List.mem_singleton] at hc
      subst hc
      exact digitChar_isDigit a h
    · rw [if_neg h] at hc
      rcases List.mem_append.mp hc with hc' | hc'
      · exact ih (a / 10) c hc'
      · simp only [List.mem_singleton] at hc'
        subst hc'
        exact digitChar_isDigit _ (Nat.mod_lt a (by omega))

theorem natDigitsGo_len :
    ∀ (fuel a : Nat), 1 ≤ fuel → 1 ≤ (natDigitsGo fuel a).length := by
  intro fuel a hf
  cases fuel with
  | zero => omega
  | succ f =>
    rw [natDigitsGo]
    by_cases h : a < 10
    · rw [if_pos h]; simp
    · rw [if_neg h]
      rw [List.length_append]
      simp

theorem natDigits_digits (a : Nat) : ∀ c ∈ natDigits a, c.isDigit = true :=
  natDigitsGo_digits (a + 1) a

theorem natDigits_len2 (a : Nat) (h : 10 ≤ a) : 2 ≤ (natDigits a).length := by
  have h1 : ¬a < 10 := by omega
  show 2 ≤ (natDigitsGo (a + 1) a).length
  rw [natDigitsGo, if_neg h1, List.length_append]
  have := natDigitsGo_len a (a / 10) (by omega)
  simp only [List.length_singleton]
  omega

theorem expDigits_spec (a : Nat) :
    2 ≤ (expDigits a).length ∧ ∀ c ∈ expDigits a, c.isDigit = true := by
  unfold expDigits
  by_cases h : a < 10
  · rw [if_pos h]
    refine ⟨by simp, ?_⟩
    intro c hc
    simp only [List.mem_cons, List.not_mem_nil, or_false] at hc
    rcases hc with rfl | rfl
    · decide
    · exact digitChar_isDigit a h
  · rw [if_neg h]
    exact ⟨natDigits_len2 a (by omega), natDigits_digits a⟩

theorem sciFormatSpec_build (sgnS : String) (hs : sgnS = " " ∨ sgnS = "-")
    (m : Nat) (e : Int) :
    sciFormatSpec (sgnS ++ mantStr m ++ "E" ++ expStr e) ∧
    11 ≤ (sgnS ++ mantStr m ++ "E" ++ expStr e).length := by
  obtain ⟨hel, hed⟩ := expDigits_spec e.natAbs
  have hsgn : ∃ c, (c = ' ' ∨ c = '-') ∧ sgnS.toList = [c] := by
    rcases hs with rfl | rfl
    · exact ⟨' ', Or.inl rfl, rfl⟩
    · exact ⟨'-', Or.inr rfl, rfl⟩
  obtain ⟨sgnC, hsc, hslist⟩ := hsgn
  constructor
  · refine ⟨sgnC, Nat.digitChar (m / 100000 % 10),
      [Nat.digitChar (m / 10000 % 10), Nat.digitChar (m / 1000 % 10),
       Nat.digitChar (m / 100 % 10), Nat.digitChar (m / 10 % 10),
       Nat.digitChar (m % 10)],
      (if e < 0 then '-' else '+'), expDigits e.natAbs,
      ?_, hsc, ?_, rfl, ?_, ?_, hel, hed⟩
    · show (sgnS ++ mantStr m ++ "E" ++ expStr e).data = _
      rw [String.data_append, String.data_append, String.data_append]
      have : sgnS.data = [sgnC] := hslist
      rw [this]
      rfl
    · exact digitChar_isDigit _ (Nat.mod_lt _ (by omega))
    · intro c hc
      simp only [List.mem_cons, List.not_mem_nil, or_false] at hc
      rcases hc with rfl | rfl | rfl | rfl | rfl <;>
        exact digitChar_isDigit _ (Nat.mod_lt _ (by omega))
    · by_cases he : e < 0
      · rw [if_pos he]; exact Or.inr rfl
      · rw [if_neg he]; exact Or.inl rfl
  · have h1 : (sgnS ++ mantStr m ++ "E" ++ expStr e).length
        = sgnS.length + (mantStr m).length + 1 + (expStr e).length := by
      rw [String.length_append, String.length_append, String.length_append]
      rfl
    have h2 : sgnS.length = 1 := by
      rcases hs with rfl | rfl <;> rfl
    have h3 : (mantStr m).length = 7 := rfl
    have h4 : (expStr e).length = 1 + (expDigits e.natAbs).length := by
      show (String.mk ((if e < 0 then '-' else '+') :: expDigits e.natAbs)).length
        = 1 + (expDigits e.natAbs).length
      show ((if e < 0 then '-' else '+') :: expDigits e.natAbs).length = _
      rw [List.length_cons]
      omega
    omega

theorem sciFormatSpec_formatE (q : PyFloat) :
    sciFormatSpec (formatE q) ∧ 11 ≤ (formatE q).length := by
  unfold formatE
  by_cases h0 : q.num = 0
  · rw [if_pos h0]
    refine ⟨⟨' ', '0', ['0', '0', '0', '0', '0'], '+', ['0', '0'],
      rfl, Or.inl rfl, rfl, rfl, ?_, Or.inl rfl, by decide, ?_⟩, by decide⟩
    · intro c hc
      simp only [List.mem_cons, List.not_mem_nil, or_false] at hc
      rcases hc with rfl | rfl | rfl | rfl | rfl <;> decide
    · intro c hc
      simp only [List.mem_cons, List.not_mem_nil, or_false] at hc
      rcases hc with rfl | rfl <;> decide
  · rw [if_neg h0]
    by_cases hneg : q.num < 0
    · simp only [hneg, if_true]
      exact sciFormatSpec_build "-" (Or.inr rfl) _ _
    · simp only [hneg, if_false, Bool.false_eq_true]
      exact sciFormatSpec_build " " (Or.inl rfl) _ _

theorem splice_ok_inv {lines : List String} {new : List (Int × List PyFloat)}
    {out : List String} (h : splice lines new = .ok out) :
    ∃ i ln spliced, firstIdx (fun l => containsSub "DISP" l) lines = some i ∧
      lines.get? (i + 5) = some ln ∧ startsW "-3" (pyStrip ln) = true ∧
      new.mapM fmtLine = some spliced ∧
      out = lines.take (i + 5) ++ spliced ++ lines.drop (i + 5) := by
  unfold splice at h
  cases hf : firstIdx (fun l => containsSub "DISP" l) lines with
  | none => rw [hf] at h; exact absurd h (by simp)
  | some i =>
    rw [hf] at h
    simp only at h
    cases hl : lines.get? (i + 5) with
    | none => rw [hl] at h; exact absurd h (by simp)
    | some ln =>
      rw [hl] at h
      simp only at h
      by_cases hs : startsW "-3" (pyStrip ln) = true
      · rw [if_pos hs] at h
        cases hm : new.mapM fmtLine with
        | none => rw [hm] at h; exact absurd h (by simp)
        | some spliced =>
          rw [hm] at h
          simp only [Except.ok.injEq] at h
          exact ⟨i, ln, spliced, rfl, hl, hs, rfl, h.symm⟩
      · rw [if_neg hs] at h
        exact absurd h (by simp)

theorem rjust_len (s : String) (w : Nat) : w ≤ (rjust s w).length := by
  unfold rjust
  rw [String.length_append]
  show (List.replicate (w - s.length) ' ').length + s.length ≥ w
  rw [List.length_replicate]
  omega

/-- C8: every record line written by `splice` is the literal `" -1"`,
followed by the node id right-justified in 10 columns, followed by the three
components each rendered in signed scientific notation with exactly five
fractional digits (sign-or-space, one digit, point, five digits, `E`,
exponent sign, at least two exponent digits; the rendered field is at least
11 columns wide, so the format's minimum width 11 never pads), followed by a
newline. -/
theorem C8_record_format {lines : List String} {new : List (Int × List PyFloat)}
    {out : List String} (h : splice lines new = Except.ok out) :
    ∀ p ∈ new, ∃ dx dy dz, p.2 = [dx, dy, dz] ∧
      fmtLine p = some (" -1" ++ rjust (toString p.1) 10 ++ formatE dx ++
        formatE dy ++ formatE dz ++ "\n") ∧
      (" -1" ++ rjust (toString p.1) 10 ++ formatE dx ++ formatE dy ++
        formatE dz ++ "\n") ∈ out ∧
      10 ≤ (rjust (toString p.1) 10).length ∧
      sciFormatSpec (formatE dx) ∧ sciFormatSpec (formatE dy) ∧
      sciFormatSpec (formatE dz) ∧
      11 ≤ (formatE dx).length ∧ 11 ≤ (formatE dy).length ∧
      11 ≤ (formatE dz).length := by
  obtain ⟨i, ln, spliced, hf, hl, hs, hm, hout⟩ := splice_ok_inv h
  intro p hp
  obtain ⟨b, hb, hbmem⟩ := mapM_mem hm hp
  obtain ⟨n, d⟩ := p
  rcases d with - | ⟨dx, - | ⟨dy, - | ⟨dz, - | ⟨dw, dtail⟩⟩⟩⟩
  · exact absurd hb (by simp [fmtLine])
  · exact absurd hb (by simp [fmtLine])
  · exact absurd hb (by simp [fmtLine])
  · have hrec : b = fmtRecord n dx dy dz := by
      simp only [fmtLine] at hb
      exact (Option.some.injEq _ _ ▸ hb).symm
    refine ⟨dx, dy, dz, rfl, rfl, ?_, rjust_len _ _,
      (sciFormatSpec_formatE dx).1, (sciFormatSpec_formatE dy).1,
      (sciFormatSpec_formatE dz).1, (sciFormatSpec_formatE dx).2,
      (sciFormatSpec_formatE dy).2, (sciFormatSpec_formatE dz).2⟩
    rw [hout]
    have : fmtRecord n dx dy dz ∈ spliced := hrec ▸ hbmem
    exact List.mem_append.mpr (Or.inl (List.mem_append.mpr (Or.inr this)))
  · exact absurd hb (by simp [fmtLine])

/-- Witness for C8 at a concrete input: one record `(1, (0, 0, 0))` spliced
into a six-line file; its rendered line is
`" -1         1 0.00000E+00 0.00000E+00 0.00000E+00\n"`. -/
theorem C8_record_format_witness :
    ∃ dx dy dz,
      (((1 : Int), [(⟨0, 1⟩ : PyFloat), ⟨0, 1⟩, ⟨0, 1⟩])).2 = [dx, dy, dz] ∧
      fmtLine ((1 : Int), [(⟨0, 1⟩ : PyFloat), ⟨0, 1⟩, ⟨0, 1⟩])
        = some (" -1" ++ rjust (toString (1 : Int)) 10 ++ formatE dx ++
          formatE dy ++ formatE dz ++ "\n") ∧
      (" -1" ++ rjust (toString (1 : Int)) 10 ++ formatE dx ++ formatE dy ++
        formatE dz ++ "\n") ∈
          (["xDISPx", "a", "b", "c", "d"] ++
            [" -1         1 0.00000E+00 0.00000E+00 0.00000E+00\n"] ++
            [" -3 z"]) ∧
      10 ≤ (rjust (toString (1 : Int)) 10).length ∧
      sciFormatSpec (formatE dx) ∧ sciFormatSpec (formatE dy) ∧
      sciFormatSpec (formatE dz) ∧
      11 ≤ (formatE dx).length ∧ 11 ≤ (formatE dy).length ∧
      11 ≤ (formatE dz).length :=
  @C8_record_format ["xDISPx", "a", "b", "c", "d", " -3 z"]
    [((1 : Int), [(⟨0, 1⟩ : PyFloat), ⟨0, 1⟩, ⟨0, 1⟩])]
    (["xDISPx", "a", "b", "c", "d"] ++
      [" -1         1 0.00000E+00 0.00000E+00 0.00000E+00\n"] ++ [" -3 z"])
    rfl ((1 : Int), [(⟨0, 1⟩ : PyFloat), ⟨0, 1⟩, ⟨0, 1⟩]) (by decide)

/-! ### Claims about `read_displacements` -/

theorem clampIdx_natCast (len a : Nat) : clampIdx len ((a : Nat) : Int) = min a len := by
  unfold clampIdx
  rw [if_neg (by omega)]
  have h : ((a : Nat) : Int).toNat = a := by omega
  rw [h]

theorem pySlice_natCast (l : List α) (a b : Nat) :
    pySlice l ((a : Nat) : Int) ((b : Nat) : Int)
      = (l.take (min b l.length)).drop (min a l.length) := by
  unfold pySlice
  rw [clampIdx_natCast, clampIdx_natCast]

/-- C5: for a `.dat` line list with a well-formed block — a first
`displacements` line at index `dIdx`, a first `energy` line at index `eIdx`,
the data range `[dIdx + 2, eIdx - 1)` well-ordered, and every line in that
range carrying four whitespace tokens whose last three parse as floats —
`read_displacements` succeeds, returns one element per data line in file
order (length `(eIdx - 1) - (dIdx + 2)`), each obtained by discarding the
line's first token and parsing the remaining three, so every element is a
3-tuple. -/
theorem C5_read_displacements {lines0 : List String} {dIdx eIdx : Nat}
    (he : firstIdx (fun ln => containsSub "energy" ln) (lines0.map pyStrip)
      = some eIdx)
    (hd : firstIdx (fun ln => containsSub "displacements" ln) (lines0.map pyStrip)
      = some dIdx)
    (horder : dIdx + 3 ≤ eIdx)
    (hparse : ∀ ln ∈ pySlice (lines0.map pyStrip) ((dIdx : Int) + 2)
        ((eIdx : Int) - 1),
      (pySplit ln).length = 4 ∧ ∃ v, ((pySplit ln).drop 1).mapM pyFloat = some v) :
    ∃ r, read_displacements lines0 = some r ∧
      r.length = (eIdx - 1) - (dIdx + 2) ∧
      (∀ k, r.get? k
        = ((pySlice (lines0.map pyStrip) ((dIdx : Int) + 2)
            ((eIdx : Int) - 1)).get? k).bind
          (fun ln => ((pySplit ln).drop 1).mapM pyFloat)) ∧
      (∀ k, k < (eIdx - 1) - (dIdx + 2) →
        (pySlice (lines0.map pyStrip) ((dIdx : Int) + 2)
            ((eIdx : Int) - 1)).get? k
          = (lines0.map pyStrip).get? (dIdx + 2 + k)) ∧
      (∀ k v, r.get? k = some v → v.length = 3) := by
  have hlen0 : eIdx < (lines0.map pyStrip).length := firstIdx_lt he
  have hblockeq : pySlice (lines0.map pyStrip) ((dIdx : Int) + 2) ((eIdx : Int) - 1)
      = ((lines0.map pyStrip).take (eIdx - 1)).drop (dIdx + 2) := by
    have h1 : ((eIdx : Int) - 1) = (((eIdx - 1 : Nat)) : Int) := by omega
    have h2 : ((dIdx : Int) + 2) = (((dIdx + 2 : Nat)) : Int) := by omega
    rw [h1, h2, pySlice_natCast, min_eq_left (by omega), min_eq_left (by omega)]
  have hblen : (pySlice (lines0.map pyStrip) ((dIdx : Int) + 2)
      ((eIdx : Int) - 1)).length = (eIdx - 1) - (dIdx + 2) := by
    rw [hblockeq, List.length_drop, List.length_take]
    omega
  have hsucc : ∀ ln ∈ pySlice (lines0.map pyStrip) ((dIdx : Int) + 2)
      ((eIdx : Int) - 1),
      ((((pySplit ln).drop 1).mapM pyFloat)).isSome = true := by
    intro ln hln
    obtain ⟨-, v, hv⟩ := hparse ln hln
    rw [hv]
    rfl
  obtain ⟨r, hr⟩ := mapM_isSome_of_forall _ _ hsucc
  obtain ⟨hrlen, hrget⟩ := mapM_some_spec _ _ r hr
  have hread : read_displacements lines0
      = (pySlice (lines0.map pyStrip) ((dIdx : Int) + 2)
          ((eIdx : Int) - 1)).mapM
        (fun ln => ((pySplit ln).drop 1).mapM pyFloat) := by
    simp only [read_displacements, he, hd]
    have h3 : (((eIdx : Nat) : Int) + 2) - 3 = ((eIdx : Int) - 1) := by omega
    rw [h3]
  refine ⟨r, ?_, ?_, ?_, ?_, ?_⟩
  · rw [hread]
    exact hr
  · rw [hrlen, hblen]
  · exact hrget
  · intro k hk
    rw [hblockeq, List.get?_drop, List.get?_take (by omega)]
  · intro k v hv
    have hg := hrget k
    rw [hv] at hg
    cases hbk : (pySlice (lines0.map pyStrip) ((dIdx : Int) + 2)
        ((eIdx : Int) - 1)).get? k with
    | none => rw [hbk] at hg; exact absurd hg.symm (by simp)
    | some ln =>
      rw [hbk] at hg
      simp only [Option.some_bind] at hg
      obtain ⟨h4, -⟩ := hparse ln (List.get?_mem hbk)
      have h3 := (mapM_some_spec pyFloat ((pySplit ln).drop 1) v hg.symm).1
      rw [List.length_drop] at h3
      omega

/-- Witness for C5 at a concrete input: `displacements` at index 1, `energy`
at index 5, one data line `1 1 2 3`, so the result has exactly one
3-tuple. -/
theorem C5_read_displacements_witness :
    ∃ r, read_displacements
        ["head", "displacements", "hdr", "1 1 2 3", "tail", "energy", "e"]
      = some r ∧ r.length = 1 := by
  obtain ⟨r, h1, h2, -, -, -⟩ := @C5_read_displacements
    ["head", "displacements", "hdr", "1 1 2 3", "tail", "energy", "e"]
    1 5 (by decide) (by decide) (by decide)
    (by
      intro ln hln
      have hln2 : ln ∈ ["1 1 2 3"] := hln
      rw [List.mem_singleton] at hln2
      subst hln2
      exact ⟨by decide, ⟨[⟨1, 1⟩, ⟨2, 1⟩, ⟨3, 1⟩], by decide⟩⟩)
  exact ⟨r, h1, h2⟩

/-! ### Claims about `read_expansion` -/

/-- C6: whenever `read_expansion` succeeds, it returns exactly one record
per line starting with `ELEMENT`, in file order; the `j`-th record is built
from the `j`-th such index `i` with: element id parsed from the second
whitespace token of line `i`, `orig` the integers of line `i + 1` (as many
entries as that line has tokens — 6 for the supported element type), and
`new` the integers of line `i + 3` concatenated with those of line `i + 4`
(as many entries as those two lines have tokens — 15 for the supported
element type); line `i + 2` is not consumed as data. -/
theorem C6_read_expansion {lines0 : List String} {rv : List Expansion}
    (h : read_expansion lines0 = some rv) :
    rv.length = ((List.range (lines0.map pyStrip).length).filter
      (fun n => startsW "ELEMENT" ((lines0.map pyStrip).getD n ""))).length ∧
    ∀ j i, ((List.range (lines0.map pyStrip).length).filter
        (fun n => startsW "ELEMENT" ((lines0.map pyStrip).getD n ""))).get? j
        = some i →
      ∃ rec, rv.get? j = some rec ∧
        (∃ tok, (pySplit ((lines0.map pyStrip).getD i "")).get? 1 = some tok ∧
          pyInt tok = some rec.element) ∧
        (∃ l1, (lines0.map pyStrip).get? (i + 1) = some l1 ∧
          (pySplit l1).mapM pyInt = some rec.orig ∧
          rec.orig.length = (pySplit l1).length) ∧
        (∃ l3 l4 a b, (lines0.map pyStrip).get? (i + 3) = some l3 ∧
          (lines0.map pyStrip).get? (i + 4) = some l4 ∧
          (pySplit l3).mapM pyInt = some a ∧ (pySplit l4).mapM pyInt = some b ∧
          rec.new = a ++ b ∧
          rec.new.length = (pySplit l3).length + (pySplit l4).length) := by
  have h' : ((List.range (lines0.map pyStrip).length).filter
      (fun n => startsW "ELEMENT" ((lines0.map pyStrip).getD n ""))).mapM
      (fun i => do
        let tok ← (pySplit ((lines0.map pyStrip).getD i "")).get? 1
        let el ← pyInt tok
        let l1 ← (lines0.map pyStrip).get? (i + 1)
        let org ← (pySplit l1).mapM pyInt
        let l3 ← (lines0.map pyStrip).get? (i + 3)
        let a ← (pySplit l3).mapM pyInt
        let l4 ← (lines0.map pyStrip).get? (i + 4)
        let b ← (pySplit l4).mapM pyInt
        some (⟨el, org, a ++ b⟩ : Expansion)) = some rv := by
    simpa only [read_expansion] using h
  obtain ⟨hlen, hget⟩ := mapM_some_spec _ _ rv h'
  refine ⟨hlen, ?_⟩
  intro j i hij
  have hfi := hget j
  rw [hij] at hfi
  simp only [Option.some_bind] at hfi
  have hj : j < rv.length := by
    rw [hlen]
    exact (List.get?_eq_some.mp hij).1
  cases hrj : rv.get? j with
  | none => rw [List.get?_eq_none] at hrj; omega
  | some rec =>
    rw [hrj] at hfi
    cases htok : (pySplit ((lines0.map pyStrip).getD i "")).get? 1 with
    | none => rw [htok] at hfi; exact absurd hfi.symm (by simp)
    | some tok =>
    rw [htok] at hfi
    simp only [Option.bind_eq_bind, Option.some_bind] at hfi
    cases hel : pyInt tok with
    | none => rw [hel] at hfi; exact absurd hfi.symm (by simp)
    | some el =>
    rw [hel] at hfi
    simp only [Option.some_bind] at hfi
    cases hl1 : (lines0.map pyStrip).get? (i + 1) with
    | none => rw [hl1] at hfi; exact absurd hfi.symm (by simp)
    | some l1 =>
    rw [hl1] at hfi
    simp only [Option.some_bind] at hfi
    cases horg : (pySplit l1).mapM pyInt with
    | none => rw [horg] at hfi; exact absurd hfi.symm (by simp)
    | some org =>
    rw [horg] at hfi
    simp only [Option.some_bind] at hfi
    cases hl3 : (lines0.map pyStrip).get? (i + 3) with
    | none => rw [hl3] at hfi; exact absurd hfi.symm (by simp)
    | some l3 =>
    rw [hl3] at hfi
    simp only [Option.some_bind] at hfi
    cases ha : (pySplit l3).mapM pyInt with
    | none => rw [ha] at hfi; exact absurd hfi.symm (by simp)
    | some a =>
    rw [ha] at hfi
    simp only [Option.some_bind] at hfi
    cases hl4 : (lines0.map pyStrip).get? (i + 4) with
    | none => rw [hl4] at hfi; exact absurd hfi.symm (by simp)
    | some l4 =>
    rw [hl4] at hfi
    simp only [Option.some_bind] at hfi
    cases hb : (pySplit l4).mapM pyInt with
    | none => rw [hb] at hfi; exact absurd hfi.symm (by simp)
    | some b =>
    rw [hb] at hfi
    simp only [Option.some_bind, Option.some.injEq] at hfi
    subst hfi
    refine ⟨⟨el, org, a ++ b⟩, rfl, ⟨tok, rfl, hel⟩,
      ⟨l1, rfl, horg, (mapM_some_spec pyInt (pySplit l1) org horg).1⟩,
      ⟨l3, l4, a, b, rfl, rfl, ha, hb, rfl, ?_⟩⟩
    show (a ++ b).length = _
    rw [List.length_append,
      (mapM_some_spec pyInt (pySplit l3) a ha).1,
      (mapM_some_spec pyInt (pySplit l4) b hb).1]

/-- Witness for C6 at a concrete input: one `ELEMENT` marker at index 0,
whose record has `orig` of length 6 and `new` of length 15. -/
theorem C6_read_expansion_witness :
    ([(⟨7, [1, 2, 3, 4, 5, 6],
        [10, 11, 12, 13, 14, 15, 16, 17, 18, 19, 20, 21, 22, 23, 24]⟩ :
      Expansion)]).length
      = ((List.range ((["ELEMENT 7 x", "1 2 3 4 5 6", "skip",
            "10 11 12 13 14 15 16 17 18 19", "20 21 22 23 24"].map
          pyStrip)).length).filter
        (fun n => startsW "ELEMENT" ((["ELEMENT 7 x", "1 2 3 4 5 6", "skip",
            "10 11 12 13 14 15 16 17 18 19", "20 21 22 23 24"].map
          pyStrip).getD n ""))).length :=
  (@C6_read_expansion ["ELEMENT 7 x", "1 2 3 4 5 6", "skip",
    "10 11 12 13 14 15 16 17 18 19", "20 21 22 23 24"]
    [⟨7, [1, 2, 3, 4, 5, 6], [10, 11, 12, 13, 14, 15, 16, 17, 18, 19, 20, 21,
      22, 23, 24]⟩] (by decide)).1

/-! ### Claim about the command line interface -/

/-- C9: with fewer than two `sys.argv` entries (i.e. no positional base-name
argument), the program prints the module docstring to standard output and
exits with status 1, without depending on any file content (the result is
the same for all file contents, modelling that no input file is read and no
output file produced); with a base name present, the pipeline runs, and when
all four stages succeed the run ends in the `ok` outcome (exit status 0)
carrying the spliced output. -/
theorem C9_cli (sysArgv datLines d12Lines frdLines : List String) :
    (sysArgv.length < 2 →
      mainRun sysArgv datLines d12Lines frdLines
        = MainResult.usageExit usageText 1) ∧
    (∀ origDisp expansion nw out, 2 ≤ sysArgv.length →
      read_displacements datLines = some origDisp →
      read_expansion d12Lines = some expansion →
      new_displacements origDisp expansion = some nw →
      splice frdLines nw = .ok out →
      mainRun sysArgv datLines d12Lines frdLines = MainResult.ok out) := by
  constructor
  · intro h
    unfold mainRun
    rw [if_pos h]
  · intro origDisp expansion nw out h2 hrd hre hnd hsp
    unfold mainRun
    rw [if_neg (by omega), hrd]
    simp only
    rw [hre]
    simp only
    rw [hnd]
    simp only
    rw [hsp]

/-- Witness for C9: a one-argument invocation returns the usage exit for
arbitrary file contents, and a two-argument invocation on a consistent
small fixture ends in `ok`. -/
theorem C9_cli_witness :
    mainRun ["post.py"] ["x"] ["y"] ["z"] = MainResult.usageExit usageText 1 ∧
    ∃ out, mainRun ["post.py", "job"]
        ["head", "displacements", "hdr", "1 1 2 3", "tail", "energy", "e"]
        ["ELEMENT 7 x", "1 1 1 1 1 1", "skip", "10 10 10 10 10 10 10 10 10 10",
          "10 10 10 10 10"]
        ["xDISPx", "a", "b", "c", "d", " -3 z"]
      = MainResult.ok out := by
  constructor
  · exact (C9_cli ["post.py"] ["x"] ["y"] ["z"]).1 (by decide)
  · refine ⟨["xDISPx", "a", "b", "c", "d"] ++
      [" -1        10 1.00000E+00 2.00000E+00 3.00000E+00\n"] ++ [" -3 z"], ?_⟩
    exact (C9_cli ["post.py", "job"] _ _ _).2
      [[⟨1, 1⟩, ⟨2, 1⟩, ⟨3, 1⟩]]
      [⟨7, [1, 1, 1, 1, 1, 1], [10, 10, 10, 10, 10, 10, 10, 10, 10, 10, 10,
        10, 10, 10, 10]⟩]
      [(10, [⟨1, 1⟩, ⟨2, 1⟩, ⟨3, 1⟩])] _
      (by decide) (by decide) (by decide) (by decide) rfl
